import Mathlib

/-!
Verification development for the Aimer_WT skin/sound-mod manager.

This file gives a shallow embedding of the two core subsystems:

* `src/skins_manager.py` — safe ZIP import into the `UserSkins` tree
  (`SkinsManager.import_skin_zip`, `_extract_zip_safely`, `_move_tree`,
  `_check_disk_space`);
* `src/manifest_manager.py` — the persistent file-ownership ledger
  (`ManifestManager.check_conflicts`, `record_installation`,
  `remove_mod_record`, `clear_manifest`).

Modelling conventions:

* The file system is a flat association list from absolute paths
  (lists of components) to nodes (directory, or file with an abstract
  content tag).  Paths written by the extractor are stored in resolved
  (normalized) form, mirroring how the OS resolves `..` segments when a
  file is opened.
* Python exceptions become `Option`/sum-typed results; logging, progress
  callbacks, `time.sleep` throttling and byte-level streaming are I/O
  effects outside the model (a file is written in one step with an
  abstract content tag).
* The text codecs used by the filename-recovery chain (`cp437` encode,
  `utf-8`/`gbk` decode) are external library functions; they are
  parameters of the model, so theorems about the chain hold for every
  choice of codec behaviour.
* `ManifestManager` is modelled with the aliasing produced by
  `EMPTY_MANIFEST.copy()` (a shallow copy): the class-level template's
  inner dictionaries are separate mutable cells which the in-memory
  manifest may alias.
-/

namespace Aimer

/-! ## String helpers (structural, kernel-computable) -/

/-- Split a character list at `/` separators (ZIP entry names use `/`). -/
def splitSlashGo (cur : List Char) : List Char → List String
  | [] => [String.mk cur.reverse]
  | c :: rest =>
    if c = '/' then String.mk cur.reverse :: splitSlashGo [] rest
    else splitSlashGo (c :: cur) rest

/-- All `/`-separated pieces of a string, empty pieces included. -/
def splitSlash (s : String) : List String := splitSlashGo [] s.data

/-- The non-empty `/`-separated components of an entry name. -/
def components (s : String) : List String :=
  (splitSlash s).filter (fun c => !(c == ""))

/-- Does the name denote an absolute POSIX path? -/
def isAbsName (s : String) : Bool := s.data.head? == some '/'

/-- Does the (raw, stored) entry name denote a directory entry?
`zipfile.ZipInfo.is_dir()` tests for a trailing `/`. -/
def nameIsDir (s : String) : Bool := s.data.getLast? == some '/'

/-- ASCII lowercasing, as used by `str.lower()` on the names involved. -/
def strLower (s : String) : String := String.mk (s.data.map Char.toLower)

/-- Is `pat` a contiguous infix of `l`? -/
def listInfixOf (pat : List Char) : List Char → Bool
  | [] => pat.isEmpty
  | c :: rest => pat.isPrefixOf (c :: rest) || listInfixOf pat rest

/-- `pat in s` on Python strings: substring containment. -/
def strContains (s pat : String) : Bool := listInfixOf pat.data s.data

/-- `pathlib.PurePath(name).name`: the last non-empty component. -/
def lastComponent (s : String) : String := (components s).getLastD ""

/-- `pathlib.PurePath(name).suffix`: the final extension of the last
component, dot included; empty when the last dot is leading or trailing
or absent. -/
def pathSuffix (s : String) : String :=
  let cs := (lastComponent s).data
  match cs.reverse.findIdx? (fun c => c = '.') with
  | none => ""
  | some j =>
    let i := cs.length - 1 - j
    if 0 < i ∧ i < cs.length - 1 then String.mk (cs.drop i) else ""

/-! ## Paths and path resolution -/

/-- An absolute path, as a list of components. -/
abbrev FPath := List String

/-- Normalize components against an accumulated absolute path:
`.` is dropped, `..` pops one component (staying put at the root),
anything else is appended.  This is the effect `Path.resolve()` has on
the `.`/`..` structure of a path. -/
def normComps (acc : FPath) : List String → FPath
  | [] => acc
  | c :: rest =>
    if c = "." then normComps acc rest
    else if c = ".." then normComps acc.dropLast rest
    else normComps (acc ++ [c]) rest

/-- `(target_dir / name).resolve()`: absolute names replace the base
(`pathlib` semantics of `/`), relative names resolve under it. -/
def resolveEntry (root : FPath) (name : String) : FPath :=
  normComps (if isAbsName name then [] else root) (components name)

/-- The path-safety validator of `_extract_zip_safely` (lines 579-587):
`os.path.commonpath([full, root]) == root`, i.e. the resolved destination
stays inside the extraction root. -/
def isInside (root : FPath) (name : String) : Bool :=
  root.isPrefixOf (resolveEntry root name)

/-! ## The file-system model -/

/-- A node of the file system: a directory, or a file carrying an
abstract content tag. -/
inductive Node where
  | file (content : Nat)
  | dir
deriving DecidableEq, Repr

/-- A file system: association list from absolute paths to nodes. -/
abbrev FS := List (FPath × Node)

/-- First binding of a path, if any. -/
def FS.lookupP : FS → FPath → Option Node
  | [], _ => none
  | (q, n) :: rest, p => if q = p then some n else FS.lookupP rest p

/-- Drop every binding of exactly this path. -/
def FS.removeP : FS → FPath → FS
  | [], _ => []
  | (q, n) :: rest, p =>
    if q = p then FS.removeP rest p else (q, n) :: FS.removeP rest p

/-- Drop every binding at or below this path. -/
def FS.removeSub : FS → FPath → FS
  | [], _ => []
  | (q, n) :: rest, p =>
    if p <+: q then FS.removeSub rest p else (q, n) :: FS.removeSub rest p

/-- Record a fresh directory (callers check absence first). -/
def FS.addDir (fs : FS) (p : FPath) : FS := (p, Node.dir) :: fs

/-- Create or overwrite a file. -/
def FS.setFile (fs : FS) (p : FPath) (c : Nat) : FS :=
  (p, Node.file c) :: FS.removeP fs p

/-- `shutil.rmtree(p)`: only valid on an existing directory; on a file or
a missing path the call raises (`none`). -/
def FS.rmtree (fs : FS) (p : FPath) : Option FS :=
  match FS.lookupP fs p with
  | some Node.dir => some (FS.removeSub fs p)
  | _ => none

/-- Relocate a whole subtree (`shutil.move` of a directory onto a
non-existing destination, i.e. a rename): every binding at or below
`src` is re-rooted at `dst`. -/
def FS.renameSub : FS → FPath → FPath → FS
  | [], _, _ => []
  | (p, n) :: rest, src, dst =>
    (if src <+: p then (dst ++ p.drop src.length, n) else (p, n)) ::
      FS.renameSub rest src dst

/-- Names of the direct children of `p` (`Path.iterdir()`). -/
def FS.childNames (fs : FS) (p : FPath) : List String :=
  fs.filterMap (fun e =>
    if e.1.length = p.length + 1 ∧ p <+: e.1 then e.1.getLast? else none)

/-- Helper for `mkdirp`: create the chain of directories `cur ++ cs`,
failing (OSError) when an intermediate path is a file. -/
def FS.mkdirpGo (fs : FS) (cur : FPath) : List String → Option FS
  | [] => some fs
  | c :: rest =>
    let nxt := cur ++ [c]
    match FS.lookupP fs nxt with
    | some (Node.file _) => none
    | some Node.dir => FS.mkdirpGo fs nxt rest
    | none => FS.mkdirpGo (FS.addDir fs nxt) nxt rest

/-- `Path.mkdir(parents=True, exist_ok=True)`. -/
def FS.mkdirp (fs : FS) (p : FPath) : Option FS := FS.mkdirpGo fs [] p

/-! ## ZIP entries and the filename-recovery chain -/

/-- An archive entry: the stored (already library-decoded) name, and an
abstract content tag for file entries. -/
structure ZipEntry where
  filename : String
  content : Nat
deriving DecidableEq, Repr

/-- `ZipInfo.is_dir()`. -/
def ZipEntry.isDir (m : ZipEntry) : Bool := nameIsDir m.filename

/-- The filename-recovery chain of `_extract_zip_safely` (lines 552-559):

```
try:    filename = member.filename.encode("cp437").decode("utf-8")
except: try:    filename = member.filename.encode("cp437").decode("gbk")
        except: filename = member.filename
```

The codecs are external library functions, passed as parameters:
`enc437` recovers the raw name bytes via a cp437 encode (failing with
`UnicodeEncodeError` when impossible), `dU`/`dG` decode bytes as UTF-8 /
GBK (failing with `UnicodeDecodeError`). -/
def decodeZipName (enc437 : String → Option (List Nat))
    (dU dG : List Nat → Option String) (stored : String) : String :=
  match (enc437 stored).bind dU with
  | some s => s
  | none =>
    match (enc437 stored).bind dG with
    | some s => s
    | none => stored

/-- Codec instantiation whose cp437 encode always fails, so the chain
keeps the stored name; used for concrete runs with ASCII names. -/
def noEnc : String → Option (List Nat) := fun _ => none

/-- Trivial decoder (never used when `noEnc` is the encoder). -/
def noDec : List Nat → Option String := fun _ => none

/-! ## Pre-scan extension validation (`import_skin_zip` lines 164-196) -/

/-- The extension allowlist `ALLOWED_EXTENSIONS`. -/
def ALLOWED_EXTENSIONS : List String := [".dds", ".blk", ".tga"]

/-- Is this entry name exempt from the pre-scan
(`'__MACOSX' in filename or 'desktop.ini' in filename.lower()`)? -/
def noisePre (filename : String) : Bool :=
  strContains filename "__MACOSX" || strContains (strLower filename) "desktop.ini"

/-- One pre-scan check: a non-directory, non-exempt entry whose
(lowercased) extension is non-empty and not allowlisted is reported by
name. -/
def preScanCheck (m : ZipEntry) : Option String :=
  if m.isDir then none
  else if noisePre m.filename then none
  else
    let ext := strLower (pathSuffix m.filename)
    if !(ext == "") && !(ALLOWED_EXTENSIONS.contains ext) then some m.filename
    else none

/-- The pre-scan of `import_skin_zip` (lines 168-179): the collected
`invalid_files`. -/
def preScanInvalid (entries : List ZipEntry) : List String :=
  entries.filterMap preScanCheck

/-! ## Safe extraction (`_extract_zip_safely`) -/

/-- The extraction-side noise filter (line 561, case-sensitive):
`"__MACOSX" in filename or "desktop.ini" in filename`. -/
def noiseEx (filename : String) : Bool :=
  strContains filename "__MACOSX" || strContains filename "desktop.ini"

/-- The outcome of (part of) an extraction run: the file system, the
path-traversal warnings logged in order
(`log.warning("拦截恶意路径穿越文件: ...")`), and whether a
`SkinsImportError` was raised. -/
structure ExOut where
  fs : FS
  warnings : List String
  err : Option Unit
deriving DecidableEq, Repr

/-- One iteration of the extraction loop over `zf.infolist()`:
decode the name, drop noise entries, validate the resolved destination
(skip-and-warn on escape), then `mkdir` for directory entries (failures
logged and skipped) or stream the file's bytes to the resolved
destination (an `OSError` there raises `SkinsImportError`). -/
def extractStep (enc437 : String → Option (List Nat))
    (dU dG : List Nat → Option String) (root : FPath) (fs : FS)
    (m : ZipEntry) : ExOut :=
  let filename := decodeZipName enc437 dU dG m.filename
  if noiseEx filename then ⟨fs, [], none⟩
  else if !(isInside root filename) then ⟨fs, [filename], none⟩
  else if m.isDir then
    match FS.mkdirp fs (resolveEntry root filename) with
    | some fs1 => ⟨fs1, [], none⟩
    | none => ⟨fs, [], none⟩
  else
    let wp := resolveEntry root filename
    match FS.mkdirp fs wp.dropLast with
    | none => ⟨fs, [], some ()⟩
    | some fs1 =>
      match FS.lookupP fs1 wp with
      | some Node.dir => ⟨fs1, [], some ()⟩
      | _ => ⟨FS.setFile fs1 wp m.content, [], none⟩

/-- The full extraction loop; an error imitates the raised
`SkinsImportError`, aborting the remaining entries but keeping the
files written and warnings logged so far. -/
def extractAll (enc437 : String → Option (List Nat))
    (dU dG : List Nat → Option String) (root : FPath) (fs : FS) :
    List ZipEntry → ExOut
  | [] => ⟨fs, [], none⟩
  | m :: ms =>
    let r := extractStep enc437 dU dG root fs m
    match r.err with
    | some _ => r
    | none =>
      let r2 := extractAll enc437 dU dG root r.fs ms
      ⟨r2.fs, r.warnings ++ r2.warnings, r2.err⟩

/-! ## `_move_tree` (merge-move, lines 633-666) -/

/-- The non-directory branch of `_move_tree` (lines 657-666): create
dst's parent (an `OSError` is logged and swallowed, leaving the tree
unchanged), unlink an existing dst file (unlinking a directory fails
silently), then `shutil.move` — onto a fresh dst it renames the file,
onto a surviving directory it moves the file *into* that directory; a
missing src makes the move raise, which is logged and swallowed. -/
def moveFileBranch (fs : FS) (src dst : FPath) : FS :=
  match FS.mkdirp fs dst.dropLast with
  | none => fs
  | some fs1 =>
    let fs2 :=
      match FS.lookupP fs1 dst with
      | some (Node.file _) => FS.removeP fs1 dst
      | _ => fs1
    match FS.lookupP fs2 src with
    | some (Node.file c) =>
      match FS.lookupP fs2 dst with
      | none => FS.setFile (FS.removeP fs2 src) dst c
      | some Node.dir =>
        let d2 := dst ++ [src.getLastD ""]
        if FS.lookupP fs2 d2 = none then FS.setFile (FS.removeP fs2 src) d2 c
        else fs2
      | some (Node.file _) => fs2
    | _ => fs2

/-- `SkinsManager._move_tree(src, dst)`, fuelled to bound the recursion
(the Python recursion terminates on any finite file system; `fuel`
larger than the file-system depth is always sufficient).

* directory src, existing dst: recursively merge each child, then
  `src.rmdir()` (silently skipped unless empty);
* directory src, fresh dst: `shutil.move` = rename of the subtree;
* otherwise the non-directory branch `moveFileBranch`.
-/
def moveTree (fuel : Nat) (fs : FS) (src dst : FPath) : FS :=
  match fuel with
  | 0 => fs
  | fuel + 1 =>
    match FS.lookupP fs src with
    | some Node.dir =>
      if (FS.lookupP fs dst).isSome then
        let names := FS.childNames fs src
        let fs1 := names.foldl (fun f n => moveTree fuel f (src ++ [n]) (dst ++ [n])) fs
        if FS.childNames fs1 src = [] ∧ FS.lookupP fs1 src = some Node.dir then
          FS.removeP fs1 src
        else fs1
      else FS.renameSub fs src dst
    | _ => moveFileBranch fs src dst

/-! ## Disk-space guard and the import orchestration (`import_skin_zip`) -/

/-- The error classes surfaced by `import_skin_zip`:
`ValueError` (validation), `FileExistsError`, `DiskSpaceError`,
`SkinsImportError`. -/
inductive ImpErr where
  | valueErr
  | fileExists
  | diskSpace
  | importErr
deriving DecidableEq, Repr

/-- `_check_disk_space` (lines 475-503): required space is
`zip_size * 3` (expansion estimate) `* 2` (safety margin); `free = none`
models a failing `shutil.disk_usage`/`stat` query, in which case the
guard logs and passes (fail-open). -/
def diskGuardFails (zipSize : Nat) (free : Option Nat) : Bool :=
  match free with
  | none => false
  | some f => decide (f < zipSize * 3 * 2)

/-- The `finally` block (lines 264-270): remove the staging directory if
it still exists; an `OSError` from `rmtree` is logged and swallowed. -/
def cleanupTmp (fs : FS) (tmp : FPath) : FS :=
  match FS.lookupP fs tmp with
  | none => fs
  | some _ =>
    match FS.rmtree fs tmp with
    | some f => f
    | none => fs

/-- Layout reconciliation (lines 242-260): list the staging directory's
top-level entries minus the noise names; a single remaining directory is
a wrapping folder whose contents merge into the target, otherwise every
top-level entry merge-moves as-is. -/
def reconcile (fuel : Nat) (fs : FS) (tmp target : FPath) : FS × Option ImpErr :=
  let tl := (FS.childNames fs tmp).filter
    (fun n => !(n == "__MACOSX") && !(n == "desktop.ini"))
  if tl.length = 1 ∧ FS.lookupP fs (tmp ++ [tl.headD ""]) = some Node.dir then
    match FS.mkdirp fs target with
    | none => (fs, some ImpErr.importErr)
    | some f1 => (moveTree fuel f1 (tmp ++ [tl.headD ""]) target, none)
  else
    match FS.mkdirp fs target with
    | none => (fs, some ImpErr.importErr)
    | some f1 =>
      (tl.foldl (fun f n => moveTree fuel f (tmp ++ [n]) (target ++ [n])) f1, none)

/-- The part of `import_skin_zip` from the disk-space check on
(everything after the destination-collision handling): guard, staging
pre-clean and creation, extraction in a `try` whose `finally` removes
the staging directory, layout reconciliation. -/
def importAfterTarget (enc437 : String → Option (List Nat))
    (dU dG : List Nat → Option String) (stem : String)
    (entries : List ZipEntry) (zipSize : Nat) (free : Option Nat)
    (fuel : Nat) (us target : FPath) (fs2 : FS) : FS × Option ImpErr :=
  if diskGuardFails zipSize free then (fs2, some ImpErr.diskSpace)
  else
    let tmp := us ++ [".__tmp_extract__" ++ stem]
    let fs3 :=
      match FS.lookupP fs2 tmp with
      | none => fs2
      | some _ =>
        match FS.rmtree fs2 tmp with
        | some f => f
        | none => fs2
    match FS.mkdirp fs3 tmp with
    | none => (fs3, some ImpErr.importErr)
    | some fs4 =>
      let r := extractAll enc437 dU dG tmp fs4 entries
      match r.err with
      | some _ => (cleanupTmp r.fs tmp, some ImpErr.importErr)
      | none =>
        let rc := reconcile fuel r.fs tmp target
        (cleanupTmp rc.1 tmp, rc.2)

/-- `SkinsManager.import_skin_zip` (lines 133-277), from the pre-scan
on.  `gp` is the game path, `stem` the archive's stem (target name),
`zipSize`/`free` the inputs of the disk-space guard, `overwrite` the
collision policy; the result pairs the final file system with the
raised error, if any. -/
def importSkinZip (enc437 : String → Option (List Nat))
    (dU dG : List Nat → Option String) (gp : FPath) (stem : String)
    (entries : List ZipEntry) (zipSize : Nat) (free : Option Nat)
    (overwrite : Bool) (fuel : Nat) (fs : FS) : FS × Option ImpErr :=
  if preScanInvalid entries ≠ [] then (fs, some ImpErr.valueErr)
  else
    let us := gp ++ ["UserSkins"]
    match FS.mkdirp fs us with
    | none => (fs, some ImpErr.importErr)
    | some fs1 =>
      let target := us ++ [stem]
      match FS.lookupP fs1 target with
      | some _ =>
        if !overwrite then (fs1, some ImpErr.fileExists)
        else
          match FS.rmtree fs1 target with
          | none => (fs1, some ImpErr.importErr)
          | some fs2 =>
            importAfterTarget enc437 dU dG stem entries zipSize free fuel us target fs2
      | none =>
        importAfterTarget enc437 dU dG stem entries zipSize free fuel us target fs1

/-! ## The manifest manager (`src/manifest_manager.py`)

Python dictionaries are modelled as association lists with in-place
update (`insertA`).  `EMPTY_MANIFEST.copy()` is a *shallow* copy: the
class-level template `{"installed_mods": {}, "file_map": {}}` and a
manifest obtained from it share the two inner dictionaries.  The state
therefore keeps the template's inner dictionaries as mutable cells
(`tpl_im`, `tpl_fm`) and records whether the in-memory manifest aliases
them (`mem_im`/`mem_fm` = `none`) or owns fresh dictionaries
(`some _`, as after loading an existing manifest file from disk). -/

/-- `installed_mods` value: the file list and the `install_time`
timestamp (abstracted to a `Nat`). -/
structure ModRecord where
  files : List String
  install_time : Nat
deriving DecidableEq, Repr

/-- First value bound to a key. -/
def lookupA {α : Type} : List (String × α) → String → Option α
  | [], _ => none
  | (k, v) :: rest, q => if k = q then some v else lookupA rest q

/-- Python `d[k] = v`: replace in place, or append a new key. -/
def insertA {α : Type} : List (String × α) → String → α → List (String × α)
  | [], k, v => [(k, v)]
  | (k1, v1) :: rest, k, v =>
    if k1 = k then (k, v) :: rest else (k1, v1) :: insertA rest k v

/-- Python `del d[k]`. -/
def eraseA {α : Type} : List (String × α) → String → List (String × α)
  | [], _ => []
  | (k1, v1) :: rest, k =>
    if k1 = k then eraseA rest k else (k1, v1) :: eraseA rest k

/-- A `ManifestManager` state: template cells, the in-memory manifest
(possibly aliasing the template), and the persisted document. -/
structure MMState where
  tpl_im : List (String × ModRecord)
  tpl_fm : List (String × String)
  mem_im : Option (List (String × ModRecord))
  mem_fm : Option (List (String × String))
  disk : Option (List (String × ModRecord) × List (String × String))
deriving DecidableEq, Repr

/-- The in-memory `installed_mods` dictionary. -/
def getIm (s : MMState) : List (String × ModRecord) := s.mem_im.getD s.tpl_im

/-- The in-memory `file_map` dictionary. -/
def getFm (s : MMState) : List (String × String) := s.mem_fm.getD s.tpl_fm

/-- Mutate the in-memory `installed_mods`; an aliased dictionary writes
through to the template. -/
def setIm (s : MMState) (f : List (String × ModRecord) → List (String × ModRecord)) :
    MMState :=
  match s.mem_im with
  | none => { s with tpl_im := f s.tpl_im }
  | some v => { s with mem_im := some (f v) }

/-- Mutate the in-memory `file_map`. -/
def setFm (s : MMState) (f : List (String × String) → List (String × String)) :
    MMState :=
  match s.mem_fm with
  | none => { s with tpl_fm := f s.tpl_fm }
  | some v => { s with mem_fm := some (f v) }

/-- A manager freshly constructed over a game root with no manifest
file: `_load_manifest` returns `EMPTY_MANIFEST.copy()` — a shallow copy
aliasing the (pristine) template's inner dictionaries. -/
def freshNoFile : MMState := ⟨[], [], none, none, none⟩

/-- `_save_manifest`: atomically persist the in-memory manifest;
`saveOk = false` models an `OSError`/`PermissionError` (state kept,
`False` returned). -/
def saveManifest (s : MMState) (saveOk : Bool) : MMState × Bool :=
  if saveOk then ({ s with disk := some (getIm s, getFm s) }, true) else (s, false)

/-- A conflict tuple emitted by `check_conflicts`. -/
structure Conflict where
  file : String
  existing_mod : String
  new_mod : String
deriving DecidableEq, Repr

/-- `ManifestManager.check_conflicts` (lines 132-159). -/
def check_conflicts (s : MMState) (mod_name : String)
    (files_to_install : List String) : List Conflict :=
  files_to_install.filterMap (fun f =>
    match lookupA (getFm s) f with
    | some existing_mod =>
      if existing_mod = mod_name then none
      else some ⟨f, existing_mod, mod_name⟩
    | none => none)

/-- `ManifestManager.record_installation` (lines 161-189): store the
file list under the mod, point every file's ownership at the mod, then
persist. -/
def record_installation (s : MMState) (saveOk : Bool) (mod_name : String)
    (installed_files : List String) (now : Nat) : MMState × Bool :=
  let s1 := setIm s (fun im => insertA im mod_name ⟨installed_files, now⟩)
  let s2 := installed_files.foldl
    (fun st f => setFm st (fun fm => insertA fm f mod_name)) s1
  saveManifest s2 saveOk

/-- `ManifestManager.remove_mod_record` (lines 191-222): drop each of
the mod's files from `file_map` only while still owned by the mod, drop
the mod's record, persist.  A mod absent from the manifest returns
`True` unchanged. -/
def remove_mod_record (s : MMState) (saveOk : Bool) (mod_name : String) :
    MMState × Bool :=
  match lookupA (getIm s) mod_name with
  | none => (s, true)
  | some record =>
    let s1 := record.files.foldl
      (fun st f =>
        if lookupA (getFm st) f = some mod_name then
          setFm st (fun fm => eraseA fm f)
        else st) s
    let s2 := setIm s1 (fun im => eraseA im mod_name)
    saveManifest s2 saveOk

/-- `ManifestManager.clear_manifest` (lines 224-245):
`self.manifest = self.EMPTY_MANIFEST.copy()` re-aliases the in-memory
manifest to the template's inner dictionaries (shallow copy!), then the
persisted file is deleted if present; a missing file still reports
success. -/
def clear_manifest (s : MMState) : MMState × Bool :=
  let s1 : MMState := { s with mem_im := none, mem_fm := none }
  match s1.disk with
  | some _ => ({ s1 with disk := none }, true)
  | none => (s1, true)

/-! ## Association-list lemmas -/

theorem lookupA_insertA {α : Type} (l : List (String × α)) (k q : String) (v : α) :
    lookupA (insertA l k v) q = if k = q then some v else lookupA l q := by
  induction l with
  | nil => simp [insertA, lookupA]
  | cons e rest ih =>
    obtain ⟨k1, v1⟩ := e
    by_cases h1 : k1 = k
    · subst h1
      by_cases h2 : k1 = q <;> simp [insertA, lookupA, h2]
    · by_cases h2 : k1 = q
      · subst h2
        have hk : ¬ k = k1 := fun h => h1 h.symm
        simp [insertA, lookupA, h1, hk]
      · simp [insertA, lookupA, h1, h2, ih]

theorem lookupA_eraseA {α : Type} (l : List (String × α)) (k q : String) :
    lookupA (eraseA l k) q = if k = q then none else lookupA l q := by
  induction l with
  | nil => simp [eraseA, lookupA]
  | cons e rest ih =>
    obtain ⟨k1, v1⟩ := e
    by_cases h1 : k1 = k
    · subst h1
      by_cases h2 : k1 = q
      · subst h2
        simp [eraseA, lookupA, ih]
      · simp [eraseA, lookupA, h2, ih]
    · by_cases h2 : k1 = q
      · subst h2
        have hk : ¬ k = k1 := fun h => h1 h.symm
        simp [eraseA, lookupA, h1, hk]
      · simp [eraseA, lookupA, h1, h2, ih]

theorem lookupA_foldl_insert (mod : String) (files : List String)
    (fm0 : List (String × String)) (q : String) :
    lookupA (files.foldl (fun fm f => insertA fm f mod) fm0) q =
      if q ∈ files then some mod else lookupA fm0 q := by
  induction files generalizing fm0 with
  | nil => simp
  | cons f rest ih =>
    simp only [List.foldl_cons, ih, lookupA_insertA]
    by_cases h : q ∈ rest
    · simp [h]
    · by_cases h2 : f = q
      · subst h2
        simp [h]
      · have : ¬ q = f := fun hq => h2 hq.symm
        simp [h, h2, this]

theorem lookupA_foldl_condErase (mod : String) (files : List String)
    (fm0 : List (String × String)) (q : String) :
    lookupA (files.foldl
        (fun fm f => if lookupA fm f = some mod then eraseA fm f else fm) fm0) q =
      if q ∈ files ∧ lookupA fm0 q = some mod then none else lookupA fm0 q := by
  induction files generalizing fm0 with
  | nil => simp
  | cons f rest ih =>
    simp only [List.foldl_cons]
    by_cases hf : lookupA fm0 f = some mod
    · rw [if_pos hf, ih]
      by_cases hq : q = f
      · subst hq
        simp [lookupA_eraseA, hf]
      · have hfq : ¬ f = q := fun h => hq h.symm
        simp [lookupA_eraseA, hfq, hq]
    · rw [if_neg hf, ih]
      by_cases hq : q = f
      · subst hq
        simp [hf]
      · simp [hq]

/-! ## Manifest state plumbing lemmas -/

theorem getFm_setFm (s : MMState) (f : List (String × String) → List (String × String)) :
    getFm (setFm s f) = f (getFm s) := by
  obtain ⟨ti, tf, mi, mf, d⟩ := s
  cases mf <;> simp [getFm, setFm]

theorem getIm_setFm (s : MMState) (f : List (String × String) → List (String × String)) :
    getIm (setFm s f) = getIm s := by
  obtain ⟨ti, tf, mi, mf, d⟩ := s
  cases mf <;> cases mi <;> simp [getIm, setFm]

theorem getIm_setIm (s : MMState)
    (f : List (String × ModRecord) → List (String × ModRecord)) :
    getIm (setIm s f) = f (getIm s) := by
  obtain ⟨ti, tf, mi, mf, d⟩ := s
  cases mi <;> simp [getIm, setIm]

theorem getFm_setIm (s : MMState)
    (f : List (String × ModRecord) → List (String × ModRecord)) :
    getFm (setIm s f) = getFm s := by
  obtain ⟨ti, tf, mi, mf, d⟩ := s
  cases mi <;> cases mf <;> simp [getFm, setIm]

theorem getFm_saveManifest (s : MMState) (ok : Bool) :
    getFm (saveManifest s ok).1 = getFm s := by
  cases ok <;> simp [saveManifest, getFm]

theorem getIm_saveManifest (s : MMState) (ok : Bool) :
    getIm (saveManifest s ok).1 = getIm s := by
  cases ok <;> simp [saveManifest, getIm]

theorem getFm_foldl_setFm (files : List String)
    (h : String → List (String × String) → List (String × String)) (s : MMState) :
    getFm (files.foldl (fun st f => setFm st (h f)) s) =
      files.foldl (fun fm f => h f fm) (getFm s) := by
  induction files generalizing s with
  | nil => simp
  | cons f rest ih => simp [ih, getFm_setFm]

theorem getIm_foldl_setFm (files : List String)
    (h : String → List (String × String) → List (String × String)) (s : MMState) :
    getIm (files.foldl (fun st f => setFm st (h f)) s) = getIm s := by
  induction files generalizing s with
  | nil => simp
  | cons f rest ih => simp [ih, getIm_setFm]

theorem getFm_record (s : MMState) (saveOk : Bool) (mod : String)
    (files : List String) (now : Nat) :
    getFm (record_installation s saveOk mod files now).1 =
      files.foldl (fun fm f => insertA fm f mod) (getFm s) := by
  simp [record_installation, getFm_saveManifest, getFm_foldl_setFm, getFm_setIm]

theorem getIm_record (s : MMState) (saveOk : Bool) (mod : String)
    (files : List String) (now : Nat) :
    getIm (record_installation s saveOk mod files now).1 =
      insertA (getIm s) mod ⟨files, now⟩ := by
  simp [record_installation, getIm_saveManifest, getIm_foldl_setFm, getIm_setIm]

theorem getFm_foldl_condErase_state (mod : String) (files : List String) (s : MMState) :
    getFm (files.foldl
        (fun st f => if lookupA (getFm st) f = some mod then
          setFm st (fun fm => eraseA fm f) else st) s) =
      files.foldl
        (fun fm f => if lookupA fm f = some mod then eraseA fm f else fm) (getFm s) := by
  induction files generalizing s with
  | nil => simp
  | cons f rest ih =>
    simp only [List.foldl_cons]
    by_cases hf : lookupA (getFm s) f = some mod
    · rw [if_pos hf, if_pos hf, ih, getFm_setFm]
    · rw [if_neg hf, if_neg hf, ih]

theorem getIm_foldl_condErase_state (mod : String) (files : List String) (s : MMState) :
    getIm (files.foldl
        (fun st f => if lookupA (getFm st) f = some mod then
          setFm st (fun fm => eraseA fm f) else st) s) = getIm s := by
  induction files generalizing s with
  | nil => simp
  | cons f rest ih =>
    simp only [List.foldl_cons]
    by_cases hf : lookupA (getFm s) f = some mod
    · rw [if_pos hf, ih, getIm_setFm]
    · rw [if_neg hf, ih]

theorem getFm_remove (s : MMState) (saveOk : Bool) (mod : String) (r : ModRecord)
    (h : lookupA (getIm s) mod = some r) :
    getFm (remove_mod_record s saveOk mod).1 =
      r.files.foldl
        (fun fm f => if lookupA fm f = some mod then eraseA fm f else fm) (getFm s) := by
  simp [remove_mod_record, h, getFm_saveManifest, getFm_setIm,
    getFm_foldl_condErase_state]

theorem getIm_remove (s : MMState) (saveOk : Bool) (mod : String) (r : ModRecord)
    (h : lookupA (getIm s) mod = some r) :
    getIm (remove_mod_record s saveOk mod).1 = eraseA (getIm s) mod := by
  simp [remove_mod_record, h, getIm_saveManifest, getIm_setIm,
    getIm_foldl_condErase_state]

/-! ## Claims C7, C8, C9 -/

/-- C7: from an empty manifest, `record_installation("pkgA", ["a","b"])`
followed by `check_conflicts("pkgB", ["b"])` returns exactly the single
conflict `{file: "b", existing_mod: "pkgA", new_mod: "pkgB"}`; and for
every manifest state, `check_conflicts(p, files)` emits no entry whose
existing owner is `p` itself, so re-recording a package and re-checking
its own files yields an empty conflict list (idempotent reinstall). -/
theorem claim_C7_conflict_detection :
    (check_conflicts (record_installation freshNoFile true "pkgA" ["a", "b"] 0).1
        "pkgB" ["b"] = [⟨"b", "pkgA", "pkgB"⟩])
    ∧ (∀ s mod files e, e ∈ check_conflicts s mod files → e.existing_mod ≠ mod)
    ∧ (∀ s saveOk mod files now,
        check_conflicts (record_installation s saveOk mod files now).1 mod files = []) := by
  refine ⟨by decide, ?_, ?_⟩
  · intro s mod files e he
    simp only [check_conflicts, List.mem_filterMap] at he
    obtain ⟨f, _, hf⟩ := he
    rcases hlk : lookupA (getFm s) f with _ | ex
    · rw [hlk] at hf
      simp at hf
    · rw [hlk] at hf
      by_cases hx : ex = mod
      · simp [hx] at hf
      · simp only [if_neg hx] at hf
        rcases hf with ⟨⟩
        exact hx
  · intro s saveOk mod files now
    simp only [check_conflicts]
    refine List.filterMap_eq_nil_iff.mpr ?_
    intro f hf
    have hlk : lookupA (getFm (record_installation s saveOk mod files now).1) f
        = some mod := by
      rw [getFm_record, lookupA_foldl_insert]
      simp [hf]
    rw [hlk]
    simp

/-- Witness for C7: its universally quantified parts hold at concrete
inputs — a genuine foreign-owner conflict tuple satisfies the
membership hypothesis, and an idempotent reinstall checks to no
conflicts. -/
theorem claim_C7_conflict_detection_witness :
    ((⟨"b", "q", "p"⟩ : Conflict).existing_mod ≠ "p")
    ∧ check_conflicts (record_installation freshNoFile true "p" ["b"] 0).1 "p" ["b"]
        = [] :=
  ⟨claim_C7_conflict_detection.2.1 ⟨[], [("b", "q")], none, none, none⟩ "p" ["b"]
      ⟨"b", "q", "p"⟩ (by decide),
   claim_C7_conflict_detection.2.2 freshNoFile true "p" ["b"] 0⟩

/-- C8: `remove_mod_record(p)` deletes `installed_mods[p]`, removes a
file from `file_map` exactly when it is listed under `p`'s record and
still owned by `p`, and leaves everything else alone; consequently
recording `pkgA → ["a","b"]` then removing `pkgA` clears both files'
ownership while preserving all other keys, and a file reassigned to a
newer package in between keeps the newer owner. -/
theorem claim_C8_remove_record :
    (∀ s saveOk mod r f, lookupA (getIm s) mod = some r →
      (lookupA (getFm (remove_mod_record s saveOk mod).1) f =
        if f ∈ r.files ∧ lookupA (getFm s) f = some mod then none
        else lookupA (getFm s) f)
      ∧ lookupA (getIm (remove_mod_record s saveOk mod).1) mod = none
      ∧ (∀ q, q ≠ mod → lookupA (getIm (remove_mod_record s saveOk mod).1) q =
          lookupA (getIm s) q))
    ∧ (∀ s so1 so2 t,
      lookupA (getFm (remove_mod_record
          (record_installation s so1 "pkgA" ["a", "b"] t).1 so2 "pkgA").1) "a" = none
      ∧ lookupA (getFm (remove_mod_record
          (record_installation s so1 "pkgA" ["a", "b"] t).1 so2 "pkgA").1) "b" = none
      ∧ (∀ f, f ≠ "a" → f ≠ "b" →
          lookupA (getFm (remove_mod_record
            (record_installation s so1 "pkgA" ["a", "b"] t).1 so2 "pkgA").1) f =
          lookupA (getFm s) f)
      ∧ (∀ q, q ≠ "pkgA" →
          lookupA (getIm (remove_mod_record
            (record_installation s so1 "pkgA" ["a", "b"] t).1 so2 "pkgA").1) q =
          lookupA (getIm s) q))
    ∧ (∀ s so1 so2 so3 t1 t2 p q fs1 fs2 f, p ≠ q → f ∈ fs2 →
      lookupA (getFm (remove_mod_record
        (record_installation (record_installation s so1 p fs1 t1).1 so2 q fs2 t2).1
        so3 p).1) f = some q) := by
  have hchar : ∀ s saveOk mod r f, lookupA (getIm s) mod = some r →
      lookupA (getFm (remove_mod_record s saveOk mod).1) f =
        if f ∈ r.files ∧ lookupA (getFm s) f = some mod then none
        else lookupA (getFm s) f := by
    intro s saveOk mod r f h
    rw [getFm_remove s saveOk mod r h, lookupA_foldl_condErase]
  refine ⟨?_, ?_, ?_⟩
  · intro s saveOk mod r f h
    refine ⟨hchar s saveOk mod r f h, ?_, ?_⟩
    · rw [getIm_remove s saveOk mod r h, lookupA_eraseA]
      simp
    · intro q hq
      rw [getIm_remove s saveOk mod r h, lookupA_eraseA,
        if_neg (fun hh => hq hh.symm)]
  · intro s so1 so2 t
    have hrec : lookupA (getIm (record_installation s so1 "pkgA" ["a", "b"] t).1)
        "pkgA" = some ⟨["a", "b"], t⟩ := by
      rw [getIm_record, lookupA_insertA]
      simp
    have hfm1 : ∀ g, lookupA (getFm (record_installation s so1 "pkgA" ["a", "b"] t).1) g
        = if g ∈ ["a", "b"] then some "pkgA" else lookupA (getFm s) g := by
      intro g
      rw [getFm_record, lookupA_foldl_insert]
    refine ⟨?_, ?_, ?_, ?_⟩
    · rw [hchar _ so2 _ _ _ hrec, hfm1]
      simp
    · rw [hchar _ so2 _ _ _ hrec, hfm1]
      simp
    · intro f hfa hfb
      rw [hchar _ so2 _ _ _ hrec, hfm1]
      simp [hfa, hfb]
    · intro q hq
      rw [getIm_remove _ so2 _ _ hrec, lookupA_eraseA,
        if_neg (fun hh => hq hh.symm), getIm_record, lookupA_insertA,
        if_neg (fun hh => hq hh.symm)]
  · intro s so1 so2 so3 t1 t2 p q fs1 fs2 f hpq hf
    have hrec : lookupA (getIm
        (record_installation (record_installation s so1 p fs1 t1).1 so2 q fs2 t2).1)
        p = some ⟨fs1, t1⟩ := by
      rw [getIm_record, lookupA_insertA, if_neg (fun hh => hpq hh.symm),
        getIm_record, lookupA_insertA]
      simp
    have hfm : lookupA (getFm
        (record_installation (record_installation s so1 p fs1 t1).1 so2 q fs2 t2).1)
        f = some q := by
      rw [getFm_record, lookupA_foldl_insert]
      simp [hf]
    rw [hchar _ so3 _ _ _ hrec, hfm]
    have : ¬ (f ∈ (ModRecord.mk fs1 t1).files ∧ (some q : Option String) = some p) := by
      rintro ⟨-, hqp⟩
      exact hpq (Option.some.inj hqp).symm
    rw [if_neg this]

/-- Witness for C8: each quantified part applies at concrete inputs
with its hypotheses discharged. -/
theorem claim_C8_remove_record_witness :
    (lookupA (getFm (remove_mod_record
        ⟨[("m", ⟨["x"], 0⟩)], [("x", "m")], none, none, none⟩ true "m").1) "x" =
      if "x" ∈ (ModRecord.mk ["x"] 0).files ∧
          lookupA (getFm (⟨[("m", ⟨["x"], 0⟩)], [("x", "m")], none, none, none⟩ : MMState))
            "x" = some "m" then none
        else lookupA (getFm (⟨[("m", ⟨["x"], 0⟩)], [("x", "m")], none, none, none⟩ : MMState)) "x")
    ∧ lookupA (getFm (remove_mod_record
        (record_installation freshNoFile true "pkgA" ["a", "b"] 0).1 true "pkgA").1)
        "a" = none
    ∧ lookupA (getFm (remove_mod_record
        (record_installation
          (record_installation freshNoFile true "p" ["a"] 0).1 true "q" ["a"] 1).1
        true "p").1) "a" = some "q" :=
  ⟨(claim_C8_remove_record.1 ⟨[("m", ⟨["x"], 0⟩)], [("x", "m")], none, none, none⟩
      true "m" ⟨["x"], 0⟩ "x" (by decide)).1,
   (claim_C8_remove_record.2.1 freshNoFile true true 0).1,
   claim_C8_remove_record.2.2 freshNoFile true true true 0 1 "p" "q" ["a"] ["a"] "a"
     (by decide) (by decide)⟩

/-! ## Extraction lemmas and claims C4, C1 -/

/-- Composing extraction runs: running the concatenation of two entry
lists runs the first, and, unless it raised, the second from the
resulting file system, concatenating the logs. -/
theorem extractAll_append (enc437 : String → Option (List Nat))
    (dU dG : List Nat → Option String) (root : FPath) (fs : FS)
    (a b : List ZipEntry) :
    extractAll enc437 dU dG root fs (a ++ b) =
      match (extractAll enc437 dU dG root fs a).err with
      | some _ => extractAll enc437 dU dG root fs a
      | none =>
        ⟨(extractAll enc437 dU dG root (extractAll enc437 dU dG root fs a).fs b).fs,
         (extractAll enc437 dU dG root fs a).warnings ++
           (extractAll enc437 dU dG root (extractAll enc437 dU dG root fs a).fs b).warnings,
         (extractAll enc437 dU dG root (extractAll enc437 dU dG root fs a).fs b).err⟩ := by
  induction a generalizing fs with
  | nil => simp [extractAll]
  | cons m ms ih =>
    simp only [List.cons_append, extractAll]
    cases hre : (extractStep enc437 dU dG root fs m).err with
    | some e => simp [hre]
    | none =>
      simp only [hre, ih]
      cases hra : (extractAll enc437 dU dG root
          (extractStep enc437 dU dG root fs m).fs ms).err with
      | some e => simp [ih, hra]
      | none => simp [ih, hra, List.append_assoc]

/-- A non-noise entry whose resolved destination escapes the extraction
root is skipped with a logged warning and no file-system effect. -/
theorem extractStep_escape (enc437 : String → Option (List Nat))
    (dU dG : List Nat → Option String) (root : FPath) (fs : FS) (m : ZipEntry)
    (hno : noiseEx (decodeZipName enc437 dU dG m.filename) = false)
    (hesc : isInside root (decodeZipName enc437 dU dG m.filename) = false) :
    extractStep enc437 dU dG root fs m =
      ⟨fs, [decodeZipName enc437 dU dG m.filename], none⟩ := by
  simp [extractStep, hno, hesc]

/-- A noise entry is dropped silently: no write, no warning, no error. -/
theorem extractStep_noise (enc437 : String → Option (List Nat))
    (dU dG : List Nat → Option String) (root : FPath) (fs : FS) (m : ZipEntry)
    (hno : noiseEx (decodeZipName enc437 dU dG m.filename) = true) :
    extractStep enc437 dU dG root fs m = ⟨fs, [], none⟩ := by
  simp [extractStep, hno]

/-- C4: the extraction filename comes from an ordered fallback chain
over the raw name bytes recovered via cp437 — a successful UTF-8 decode
wins; otherwise a successful GBK decode wins; otherwise (including when
the cp437 byte recovery itself fails) the stored name is used as-is. -/
theorem claim_C4_filename_decode_chain :
    (∀ (enc437 : String → Option (List Nat)) (dU dG : List Nat → Option String)
        (stored : String) (b : List Nat) (s : String),
      enc437 stored = some b → dU b = some s →
      decodeZipName enc437 dU dG stored = s)
    ∧ (∀ (enc437 : String → Option (List Nat)) (dU dG : List Nat → Option String)
        (stored : String) (b : List Nat) (t : String),
      enc437 stored = some b → dU b = none → dG b = some t →
      decodeZipName enc437 dU dG stored = t)
    ∧ (∀ (enc437 : String → Option (List Nat)) (dU dG : List Nat → Option String)
        (stored : String),
      (enc437 stored).bind dU = none → (enc437 stored).bind dG = none →
      decodeZipName enc437 dU dG stored = stored) := by
  refine ⟨?_, ?_, ?_⟩
  · intro enc437 dU dG stored b s h1 h2
    simp [decodeZipName, h1, h2]
  · intro enc437 dU dG stored b t h1 h2 h3
    simp [decodeZipName, h1, h2, h3]
  · intro enc437 dU dG stored h1 h2
    simp [decodeZipName, h1, h2]

/-- A cp437 recovery that always succeeds with a fixed byte, for
exercising the decode chain at concrete inputs. -/
def encConst : String → Option (List Nat) := fun _ => some [200]

/-- A decoder that always succeeds with a fixed string. -/
def decConst : List Nat → Option String := fun _ => some "N"

/-- Witness for C4: each leg of the fallback chain fires at a concrete
codec instantiation. -/
theorem claim_C4_filename_decode_chain_witness :
    decodeZipName encConst decConst noDec "x" = "N"
    ∧ decodeZipName encConst noDec decConst "x" = "N"
    ∧ decodeZipName encConst noDec noDec "x" = "x" :=
  ⟨claim_C4_filename_decode_chain.1 encConst decConst noDec "x" [200] "N" rfl rfl,
   claim_C4_filename_decode_chain.2.1 encConst noDec decConst "x" [200] "N" rfl rfl rfl,
   claim_C4_filename_decode_chain.2.2 encConst noDec noDec "x" rfl rfl⟩

/-- C1 counterexample: the noise filter runs *before* the path-safety
validator, so an entry whose resolved destination escapes the
extraction root but whose name contains a noise marker is dropped with
*no* warning recorded — the claim as stated requires a warning for
every escaping entry. -/
theorem claim_C1_counterexample :
    isInside ["G", "UserSkins", ".__tmp_extract__p"]
        (decodeZipName noEnc noDec noDec "__MACOSX/../../evil.dds") = false
    ∧ (extractAll noEnc noDec noDec ["G", "UserSkins", ".__tmp_extract__p"]
        [(["G", "UserSkins", ".__tmp_extract__p"], Node.dir)]
        [⟨"__MACOSX/../../evil.dds", 7⟩]).warnings = []
    ∧ (extractAll noEnc noDec noDec ["G", "UserSkins", ".__tmp_extract__p"]
        [(["G", "UserSkins", ".__tmp_extract__p"], Node.dir)]
        [⟨"__MACOSX/../../evil.dds", 7⟩]).fs =
      [(["G", "UserSkins", ".__tmp_extract__p"], Node.dir)] := by
  decide

/-- C1 (amended): for every *non-noise* archive entry whose resolved
destination escapes the extraction root, extraction skips the entry
without writing anything, records a warning, and continues — the
remaining entries produce exactly the file system and outcome of the
run without the offending entry.  (Entries carrying the noise markers
`__MACOSX`/`desktop.ini` are dropped earlier by the noise filter,
silently.) -/
theorem claim_C1_traversal_skip (enc437 : String → Option (List Nat))
    (dU dG : List Nat → Option String) (root : FPath)
    (es1 es2 : List ZipEntry) (bad : ZipEntry) (fs : FS)
    (hno : noiseEx (decodeZipName enc437 dU dG bad.filename) = false)
    (hesc : isInside root (decodeZipName enc437 dU dG bad.filename) = false) :
    (extractAll enc437 dU dG root fs (es1 ++ bad :: es2)).fs =
      (extractAll enc437 dU dG root fs (es1 ++ es2)).fs
    ∧ (extractAll enc437 dU dG root fs (es1 ++ bad :: es2)).err =
      (extractAll enc437 dU dG root fs (es1 ++ es2)).err
    ∧ ((extractAll enc437 dU dG root fs es1).err = none →
        decodeZipName enc437 dU dG bad.filename ∈
          (extractAll enc437 dU dG root fs (es1 ++ bad :: es2)).warnings) := by
  rw [extractAll_append enc437 dU dG root fs es1 (bad :: es2),
    extractAll_append enc437 dU dG root fs es1 es2]
  cases hra : (extractAll enc437 dU dG root fs es1).err with
  | some e => simp [hra]
  | none =>
    simp only
    have hb := extractStep_escape enc437 dU dG root
      (extractAll enc437 dU dG root fs es1).fs bad hno hesc
    simp only [extractAll, hb]
    simp [List.mem_append]

/-- Witness for C1's amended theorem: a concrete `../`-escaping entry
between two valid entries. -/
theorem claim_C1_traversal_skip_witness :
    (extractAll noEnc noDec noDec ["G", "UserSkins", ".__tmp_extract__p"]
        [(["G", "UserSkins", ".__tmp_extract__p"], Node.dir)]
        ([⟨"good1.dds", 1⟩] ++ ⟨"../evil.dds", 9⟩ :: [⟨"good2.tga", 2⟩])).fs =
      (extractAll noEnc noDec noDec ["G", "UserSkins", ".__tmp_extract__p"]
        [(["G", "UserSkins", ".__tmp_extract__p"], Node.dir)]
        ([⟨"good1.dds", 1⟩] ++ [⟨"good2.tga", 2⟩])).fs
    ∧ (extractAll noEnc noDec noDec ["G", "UserSkins", ".__tmp_extract__p"]
        [(["G", "UserSkins", ".__tmp_extract__p"], Node.dir)]
        ([⟨"good1.dds", 1⟩] ++ ⟨"../evil.dds", 9⟩ :: [⟨"good2.tga", 2⟩])).err =
      (extractAll noEnc noDec noDec ["G", "UserSkins", ".__tmp_extract__p"]
        [(["G", "UserSkins", ".__tmp_extract__p"], Node.dir)]
        ([⟨"good1.dds", 1⟩] ++ [⟨"good2.tga", 2⟩])).err
    ∧ ((extractAll noEnc noDec noDec ["G", "UserSkins", ".__tmp_extract__p"]
        [(["G", "UserSkins", ".__tmp_extract__p"], Node.dir)]
        [⟨"good1.dds", 1⟩]).err = none →
        decodeZipName noEnc noDec noDec "../evil.dds" ∈
          (extractAll noEnc noDec noDec ["G", "UserSkins", ".__tmp_extract__p"]
            [(["G", "UserSkins", ".__tmp_extract__p"], Node.dir)]
            ([⟨"good1.dds", 1⟩] ++ ⟨"../evil.dds", 9⟩ :: [⟨"good2.tga", 2⟩])).warnings) :=
  claim_C1_traversal_skip noEnc noDec noDec ["G", "UserSkins", ".__tmp_extract__p"]
    [⟨"good1.dds", 1⟩] [⟨"good2.tga", 2⟩] ⟨"../evil.dds", 9⟩
    [(["G", "UserSkins", ".__tmp_extract__p"], Node.dir)] (by decide) (by decide)

/-! ## Claims C2, C10, C3 -/

/-- C2 counterexample: a file entry under `__MACOSX` with a forbidden
extension (`.exe`, non-empty and outside the allowlist) does *not*
abort the import — the pre-scan exempts noise entries, so the import
runs to completion instead of failing validation. -/
theorem claim_C2_counterexample :
    ((ZipEntry.mk "__MACOSX/evil.exe" 5).isDir = false
      ∧ (strLower (pathSuffix "__MACOSX/evil.exe") == "") = false
      ∧ ALLOWED_EXTENSIONS.contains (strLower (pathSuffix "__MACOSX/evil.exe")) = false)
    ∧ (importSkinZip noEnc noDec noDec ["G"] "p" [⟨"__MACOSX/evil.exe", 5⟩]
        1 none false 20 []).2 = none := by
  decide

/-- C2 (amended): if any file entry *not exempted by the noise filter*
(`'__MACOSX' in name or 'desktop.ini' in name.lower()`) has a non-empty
extension outside `{.dds, .blk, .tga}`, the import aborts with a
validation error during the pre-scan, returning the file system
untouched — no `UserSkins`, staging, or destination directory is
created or modified. -/
theorem claim_C2_prescan_abort (enc437 : String → Option (List Nat))
    (dU dG : List Nat → Option String) (gp : FPath) (stem : String)
    (entries : List ZipEntry) (zipSize : Nat) (free : Option Nat)
    (overwrite : Bool) (fuel : Nat) (fs : FS)
    (h : ∃ m ∈ entries, m.isDir = false ∧ noisePre m.filename = false ∧
      (strLower (pathSuffix m.filename) == "") = false ∧
      ALLOWED_EXTENSIONS.contains (strLower (pathSuffix m.filename)) = false) :
    importSkinZip enc437 dU dG gp stem entries zipSize free overwrite fuel fs
      = (fs, some ImpErr.valueErr) := by
  obtain ⟨m, hm, hd, hn, he, ha⟩ := h
  have ha2 : strLower (pathSuffix m.filename) ∉ ALLOWED_EXTENSIONS := by
    simpa using ha
  have hchk : preScanCheck m = some m.filename := by
    simp [preScanCheck, hd, hn, he, ha2]
  have hne : preScanInvalid entries ≠ [] :=
    List.ne_nil_of_mem (List.mem_filterMap.mpr ⟨m, hm, hchk⟩)
  simp [importSkinZip, hne]

/-- Witness for C2's amended theorem: a plain `.txt` entry aborts
the run with the file system unchanged. -/
theorem claim_C2_prescan_abort_witness :
    importSkinZip noEnc noDec noDec ["G"] "p" [⟨"notes.txt", 1⟩] 1 none false 20 []
      = ([], some ImpErr.valueErr) :=
  claim_C2_prescan_abort noEnc noDec noDec ["G"] "p" [⟨"notes.txt", 1⟩] 1 none
    false 20 [] ⟨⟨"notes.txt", 1⟩, by decide, by decide, by decide, by decide, by decide⟩

/-- C10: noise entries (`__MACOSX` anywhere in the name, or
`desktop.ini` in the lowercased name) are exempt from the pre-scan
allowlist — removing or inserting such an entry never changes the
collected invalid files — and entries whose decoded name contains
`__MACOSX` or `desktop.ini` are never written during extraction; a
concrete archive carrying such noise alongside allowed files is
still imported, with the noise omitted from the destination. -/
theorem claim_C10_noise_exemption :
    (∀ es1 es2 (m : ZipEntry), noisePre m.filename = true →
      preScanInvalid (es1 ++ m :: es2) = preScanInvalid (es1 ++ es2))
    ∧ (∀ (enc437 : String → Option (List Nat)) (dU dG : List Nat → Option String)
        (root : FPath) (fs : FS) (m : ZipEntry),
      noiseEx (decodeZipName enc437 dU dG m.filename) = true →
      extractStep enc437 dU dG root fs m = ⟨fs, [], none⟩)
    ∧ importSkinZip noEnc noDec noDec ["G"] "camo"
        [⟨"camo/", 0⟩, ⟨"camo/a.dds", 1⟩, ⟨"__MACOSX/camo/._a.dds", 2⟩,
         ⟨"desktop.ini", 3⟩] 1 (some 99) false 20 [] =
      ([(["G", "UserSkins", "camo", "a.dds"], Node.file 1),
        (["G", "UserSkins", "camo"], Node.dir),
        (["G", "UserSkins"], Node.dir),
        (["G"], Node.dir)], none) := by
  refine ⟨?_, ?_, by decide⟩
  · intro es1 es2 m hm
    have hchk : preScanCheck m = none := by
      by_cases hd : m.isDir = true <;> simp [preScanCheck, hd, hm]
    simp [preScanInvalid, List.filterMap_append, List.filterMap_cons, hchk]
  · intro enc437 dU dG root fs m hm
    exact extractStep_noise enc437 dU dG root fs m hm

/-- Witness for C10: the quantified exemptions hold at concrete noise
entries. -/
theorem claim_C10_noise_exemption_witness :
    preScanInvalid ([⟨"a.dds", 1⟩] ++ ⟨"__MACOSX/x.exe", 2⟩ :: []) =
      preScanInvalid ([⟨"a.dds", 1⟩] ++ [])
    ∧ extractStep noEnc noDec noDec ["G"] [(["G"], Node.dir)] ⟨"desktop.ini", 3⟩
        = ⟨[(["G"], Node.dir)], [], none⟩ :=
  ⟨claim_C10_noise_exemption.1 [⟨"a.dds", 1⟩] [] ⟨"__MACOSX/x.exe", 2⟩ (by decide),
   claim_C10_noise_exemption.2.1 noEnc noDec noDec ["G"] [(["G"], Node.dir)]
     ⟨"desktop.ini", 3⟩ (by decide)⟩

/-- C3: when exactly one non-noise top-level entry remains in staging
and it is a directory, reconciliation merge-moves it (hence its
children) onto the final package directory; and the two end-to-end
runs: `camo_red.zip` with a single wrapping folder of three allowed
files imports into `UserSkins/camo_red` holding exactly those three
files with no leftover staging, and an archive with two bare top-level
files merge-moves each entry as-is. -/
theorem claim_C3_layout_reconciliation :
    (∀ fuel (fs : FS) (tmp target : FPath) (n : String) (f1 : FS),
      ((FS.childNames fs tmp).filter
          (fun x => !(x == "__MACOSX") && !(x == "desktop.ini"))) = [n] →
      FS.lookupP fs (tmp ++ [n]) = some Node.dir →
      FS.mkdirp fs target = some f1 →
      reconcile fuel fs tmp target = (moveTree fuel f1 (tmp ++ [n]) target, none))
    ∧ importSkinZip noEnc noDec noDec ["G"] "camo_red"
        [⟨"camo_red/", 0⟩, ⟨"camo_red/a.dds", 1⟩, ⟨"camo_red/b.blk", 2⟩,
         ⟨"camo_red/c.tga", 3⟩] 1 (some 1000000) false 20 [] =
      ([(["G", "UserSkins", "camo_red", "a.dds"], Node.file 1),
        (["G", "UserSkins", "camo_red", "b.blk"], Node.file 2),
        (["G", "UserSkins", "camo_red", "c.tga"], Node.file 3),
        (["G", "UserSkins", "camo_red"], Node.dir),
        (["G", "UserSkins"], Node.dir),
        (["G"], Node.dir)], none)
    ∧ importSkinZip noEnc noDec noDec ["G"] "pack" [⟨"x.dds", 1⟩, ⟨"y.blk", 2⟩]
        1 none false 20 [] =
      ([(["G", "UserSkins", "pack", "x.dds"], Node.file 1),
        (["G", "UserSkins", "pack", "y.blk"], Node.file 2),
        (["G", "UserSkins", "pack"], Node.dir),
        (["G", "UserSkins"], Node.dir),
        (["G"], Node.dir)], none) := by
  refine ⟨?_, by decide, by decide⟩
  intro fuel fs tmp target n f1 htl hdir hmk
  simp [reconcile, htl, hdir, hmk]

/-- Witness for C3: the flatten branch fires on a concrete staging
layout. -/
theorem claim_C3_layout_reconciliation_witness :
    reconcile 20 [(["t"], Node.dir), (["t", "w"], Node.dir), (["u"], Node.dir)]
        ["t"] ["u", "pkg"] =
      (moveTree 20
        [(["u", "pkg"], Node.dir), (["t"], Node.dir), (["t", "w"], Node.dir),
         (["u"], Node.dir)] (["t"] ++ ["w"]) ["u", "pkg"], none) :=
  claim_C3_layout_reconciliation.1 20
    [(["t"], Node.dir), (["t", "w"], Node.dir), (["u"], Node.dir)]
    ["t"] ["u", "pkg"] "w"
    [(["u", "pkg"], Node.dir), (["t"], Node.dir), (["t", "w"], Node.dir),
     (["u"], Node.dir)] (by decide) (by decide) (by decide)

/-! ## File-system lemmas for the staging-cleanup claim -/

theorem mem_removeSub (fs : FS) (p : FPath) (e : FPath × Node) :
    e ∈ FS.removeSub fs p ↔ e ∈ fs ∧ ¬ p <+: e.1 := by
  induction fs with
  | nil => simp [FS.removeSub]
  | cons a rest ih =>
    obtain ⟨q, n⟩ := a
    by_cases hp : p <+: q
    · simp only [FS.removeSub, if_pos hp, ih, List.mem_cons]
      constructor
      · rintro ⟨h1, h2⟩
        exact ⟨Or.inr h1, h2⟩
      · rintro ⟨h1 | h1, h2⟩
        · subst h1
          exact absurd hp h2
        · exact ⟨h1, h2⟩
    · simp only [FS.removeSub, if_neg hp, List.mem_cons, ih]
      constructor
      · rintro (h1 | ⟨h1, h2⟩)
        · subst h1
          exact ⟨Or.inl rfl, hp⟩
        · exact ⟨Or.inr h1, h2⟩
      · rintro ⟨h1 | h1, h2⟩
        · exact Or.inl h1
        · exact Or.inr ⟨h1, h2⟩

theorem lookupP_removeP_ne (fs : FS) (p q : FPath) (h : q ≠ p) :
    FS.lookupP (FS.removeP fs p) q = FS.lookupP fs q := by
  induction fs with
  | nil => simp [FS.removeP]
  | cons a rest ih =>
    obtain ⟨r, n⟩ := a
    by_cases hr : r = p
    · subst hr
      have hpq : ¬ r = q := fun hh => h hh.symm
      simp only [FS.removeP, if_pos rfl, FS.lookupP, if_neg hpq]
      exact ih
    · by_cases hq : r = q
      · subst hq
        simp [FS.removeP, hr, FS.lookupP]
      · simp only [FS.removeP, if_neg hr, FS.lookupP, if_neg hq]
        exact ih

theorem lookupP_removeP_self (fs : FS) (p : FPath) :
    FS.lookupP (FS.removeP fs p) p = none := by
  induction fs with
  | nil => simp [FS.removeP, FS.lookupP]
  | cons a rest ih =>
    obtain ⟨r, n⟩ := a
    by_cases hr : r = p
    · simpa [FS.removeP, hr] using ih
    · simp [FS.removeP, hr, FS.lookupP, ih]

theorem lookupP_setFile_ne (fs : FS) (p q : FPath) (c : Nat) (h : q ≠ p) :
    FS.lookupP (FS.setFile fs p c) q = FS.lookupP fs q := by
  have hpq : ¬ p = q := fun hh => h hh.symm
  simp only [FS.setFile, FS.lookupP, if_neg hpq]
  exact lookupP_removeP_ne fs p q h

theorem lookupP_renameSub (fs : FS) (src dst q : FPath)
    (hs : ¬ src <+: q) (hd : ¬ dst <+: q) :
    FS.lookupP (FS.renameSub fs src dst) q = FS.lookupP fs q := by
  induction fs with
  | nil => simp [FS.renameSub, FS.lookupP]
  | cons a rest ih =>
    obtain ⟨p, n⟩ := a
    by_cases hp : src <+: p
    · have hpq : ¬ p = q := fun hh => hs (hh ▸ hp)
      have hnq : ¬ dst ++ p.drop src.length = q := by
        intro hh
        exact hd (hh ▸ List.prefix_append dst (p.drop src.length))
      simp only [FS.renameSub]
      rw [if_pos hp]
      simp only [FS.lookupP]
      rw [if_neg hnq, if_neg hpq]
      exact ih
    · simp only [FS.renameSub]
      rw [if_neg hp]
      simp only [FS.lookupP]
      by_cases hq : p = q
      · simp [hq]
      · rw [if_neg hq, if_neg hq]
        exact ih

theorem mkdirpGo_preserves (cs : List String) (fs f' : FS) (cur q : FPath)
    (n : Node) (hgo : FS.mkdirpGo fs cur cs = some f')
    (h : FS.lookupP fs q = some n) : FS.lookupP f' q = some n := by
  induction cs generalizing fs cur with
  | nil =>
    simp only [FS.mkdirpGo, Option.some.injEq] at hgo
    exact hgo ▸ h
  | cons c rest ih =>
    simp only [FS.mkdirpGo] at hgo
    rcases hl : FS.lookupP fs (cur ++ [c]) with _ | nn
    · rw [hl] at hgo
      have hne : cur ++ [c] ≠ q := fun hh => by
        rw [hh] at hl
        rw [h] at hl
        cases hl
      refine ih (FS.addDir fs (cur ++ [c])) (cur ++ [c]) hgo ?_
      simpa [FS.addDir, FS.lookupP, hne] using h
    · rw [hl] at hgo
      cases nn with
      | file cc => cases hgo
      | dir => exact ih fs (cur ++ [c]) hgo h

theorem mkdirp_preserves (fs f' : FS) (p q : FPath) (n : Node)
    (hgo : FS.mkdirp fs p = some f') (h : FS.lookupP fs q = some n) :
    FS.lookupP f' q = some n :=
  mkdirpGo_preserves p fs f' [] q n hgo h

theorem mkdirpGo_self_dir (cs : List String) (fs f' : FS) (cur : FPath)
    (hne : cs ≠ []) (hgo : FS.mkdirpGo fs cur cs = some f') :
    FS.lookupP f' (cur ++ cs) = some Node.dir := by
  induction cs generalizing fs cur with
  | nil => exact absurd rfl hne
  | cons c rest ih =>
    simp only [FS.mkdirpGo] at hgo
    rcases hrest : rest with _ | ⟨c2, rest2⟩
    · subst hrest
      rcases hl : FS.lookupP fs (cur ++ [c]) with _ | nn
      · rw [hl] at hgo
        simp only [FS.mkdirpGo, Option.some.injEq] at hgo
        subst hgo
        simp [FS.addDir, FS.lookupP]
      · rw [hl] at hgo
        cases nn with
        | file cc => cases hgo
        | dir =>
          simp only [FS.mkdirpGo, Option.some.injEq] at hgo
          exact hgo ▸ hl
    · subst hrest
      have hcons : cur ++ c :: c2 :: rest2 = (cur ++ [c]) ++ c2 :: rest2 := by
        simp
      rw [hcons]
      rcases hl : FS.lookupP fs (cur ++ [c]) with _ | nn
      · rw [hl] at hgo
        exact ih (FS.addDir fs (cur ++ [c])) (cur ++ [c]) (by simp) hgo
      · rw [hl] at hgo
        cases nn with
        | file cc => cases hgo
        | dir => exact ih fs (cur ++ [c]) (by simp) hgo

theorem mkdirp_self_dir (fs f' : FS) (p : FPath) (hne : p ≠ [])
    (hgo : FS.mkdirp fs p = some f') : FS.lookupP f' p = some Node.dir := by
  have := mkdirpGo_self_dir p fs f' [] hne hgo
  simpa using this

theorem mkdirpGo_mem (cs : List String) (fs f' : FS) (cur : FPath)
    (hgo : FS.mkdirpGo fs cur cs = some f') (e : FPath × Node) (he : e ∈ f') :
    e ∈ fs ∨ e.1 <+: cur ++ cs := by
  induction cs generalizing fs cur with
  | nil =>
    simp only [FS.mkdirpGo, Option.some.injEq] at hgo
    exact Or.inl (hgo ▸ he)
  | cons c rest ih =>
    simp only [FS.mkdirpGo] at hgo
    have hcons : cur ++ c :: rest = (cur ++ [c]) ++ rest := by simp
    rcases hl : FS.lookupP fs (cur ++ [c]) with _ | nn
    · rw [hl] at hgo
      rcases ih (FS.addDir fs (cur ++ [c])) (cur ++ [c]) hgo with hm | hp
      · rcases List.mem_cons.mp hm with hm1 | hm2
        · right
          rw [hcons, hm1]
          exact List.prefix_append _ _
        · exact Or.inl hm2
      · right
        rw [hcons]
        exact hp
    · rw [hl] at hgo
      cases nn with
      | file cc => cases hgo
      | dir =>
        rcases ih fs (cur ++ [c]) hgo with hm | hp
        · exact Or.inl hm
        · right
          rw [hcons]
          exact hp

theorem mkdirp_mem (fs f' : FS) (p : FPath) (hgo : FS.mkdirp fs p = some f')
    (e : FPath × Node) (he : e ∈ f') : e ∈ fs ∨ e.1 <+: p := by
  have := mkdirpGo_mem p fs f' [] hgo e he
  simpa using this

theorem ne_of_not_pfx {p q : FPath} (h : ¬ p <+: q) : q ≠ p := by
  intro hh
  subst hh
  exact h (List.prefix_refl q)

theorem not_prefix_extend {src q : FPath} (n : String) (h : ¬ src <+: q) :
    ¬ (src ++ [n]) <+: q :=
  fun hh => h ((List.prefix_append src [n]).trans hh)

theorem append_singleton_not_pfx (p : FPath) (n : String) :
    ¬ (p ++ [n]) <+: p := by
  intro h
  have := h.length_le
  simp at this

/-- A directory binding survives one extraction step. -/
theorem extractStep_preserves_dir (enc437 : String → Option (List Nat))
    (dU dG : List Nat → Option String) (root : FPath) (fs : FS) (m : ZipEntry)
    (q : FPath) (h : FS.lookupP fs q = some Node.dir) :
    FS.lookupP (extractStep enc437 dU dG root fs m).fs q = some Node.dir := by
  by_cases h1 : noiseEx (decodeZipName enc437 dU dG m.filename) = true
  · simpa [extractStep, h1] using h
  · by_cases h2 : isInside root (decodeZipName enc437 dU dG m.filename) = true
    · by_cases h3 : m.isDir = true
      · rcases hmk : FS.mkdirp fs (resolveEntry root (decodeZipName enc437 dU dG m.filename))
            with _ | fs1
        · simpa [extractStep, h1, h2, h3, hmk] using h
        · simpa [extractStep, h1, h2, h3, hmk] using
            mkdirp_preserves fs fs1 _ q Node.dir hmk h
      · rcases hmk : FS.mkdirp fs
            (resolveEntry root (decodeZipName enc437 dU dG m.filename)).dropLast
            with _ | fs1
        · simpa [extractStep, h1, h2, h3, hmk] using h
        · have hq1 : FS.lookupP fs1 q = some Node.dir :=
            mkdirp_preserves fs fs1 _ q Node.dir hmk h
          rcases hl : FS.lookupP fs1
              (resolveEntry root (decodeZipName enc437 dU dG m.filename)) with _ | nn
          · have hne : q ≠ resolveEntry root (decodeZipName enc437 dU dG m.filename) := by
              intro hh
              rw [hh, hl] at hq1
              cases hq1
            simpa [extractStep, h1, h2, h3, hmk, hl,
              lookupP_setFile_ne fs1 _ q m.content hne] using hq1
          · cases nn with
            | dir => simpa [extractStep, h1, h2, h3, hmk, hl] using hq1
            | file c =>
              have hne : q ≠ resolveEntry root (decodeZipName enc437 dU dG m.filename) := by
                intro hh
                rw [hh, hl] at hq1
                cases hq1
              simpa [extractStep, h1, h2, h3, hmk, hl,
                lookupP_setFile_ne fs1 _ q m.content hne] using hq1
    · simpa [extractStep, h1, h2] using h

/-- A directory binding survives a whole extraction run. -/
theorem extractAll_preserves_dir (enc437 : String → Option (List Nat))
    (dU dG : List Nat → Option String) (root : FPath) (es : List ZipEntry)
    (fs : FS) (q : FPath) (h : FS.lookupP fs q = some Node.dir) :
    FS.lookupP (extractAll enc437 dU dG root fs es).fs q = some Node.dir := by
  induction es generalizing fs with
  | nil => simpa [extractAll] using h
  | cons m ms ih =>
    simp only [extractAll]
    cases hre : (extractStep enc437 dU dG root fs m).err with
    | some e =>
      simpa [hre] using extractStep_preserves_dir enc437 dU dG root fs m q h
    | none =>
      simpa [hre] using ih _ (extractStep_preserves_dir enc437 dU dG root fs m q h)

/-- A directory binding outside the destination survives the
non-directory branch of `_move_tree`. -/
theorem moveFileBranch_preserves_dir (fs : FS) (src dst q : FPath)
    (hs : ¬ src <+: q) (hd : ¬ dst <+: q)
    (h : FS.lookupP fs q = some Node.dir) :
    FS.lookupP (moveFileBranch fs src dst) q = some Node.dir := by
  have hqs : q ≠ src := ne_of_not_pfx hs
  have hqd : q ≠ dst := ne_of_not_pfx hd
  rcases hmk : FS.mkdirp fs dst.dropLast with _ | fs1
  · simpa [moveFileBranch, hmk] using h
  · have h1 : FS.lookupP fs1 q = some Node.dir :=
      mkdirp_preserves fs fs1 _ q Node.dir hmk h
    have hfs2 : ∀ fs2 : FS,
        (fs2 = fs1 ∨ fs2 = FS.removeP fs1 dst) →
        FS.lookupP fs2 q = some Node.dir := by
      rintro fs2 (rfl | rfl)
      · exact h1
      · rw [lookupP_removeP_ne fs1 dst q hqd]
        exact h1
    have hqd2 : q ≠ dst ++ [src.getLastD ""] := by
      intro hh
      exact hd (hh ▸ List.prefix_append dst [src.getLastD ""])
    -- reduce through the inner matches uniformly
    simp only [moveFileBranch, hmk]
    rcases hld : FS.lookupP fs1 dst with _ | mm
    · simp only [hld]
      have h2 := hfs2 fs1 (Or.inl rfl)
      rcases hmv : FS.lookupP fs1 src with _ | nn2
      · simpa using h2
      · cases nn2 with
        | dir => simpa using h2
        | file c =>
          simp only [hld]
          rw [lookupP_setFile_ne _ dst q c hqd, lookupP_removeP_ne _ src q hqs]
          exact h2
    · cases mm with
      | dir =>
        simp only [hld]
        have h2 := hfs2 fs1 (Or.inl rfl)
        rcases hmv : FS.lookupP fs1 src with _ | nn2
        · simpa using h2
        · cases nn2 with
          | dir => simpa using h2
          | file c =>
            simp only [hld]
            by_cases hd2 : FS.lookupP fs1 (dst ++ [src.getLastD ""]) = none
            · rw [if_pos hd2]
              rw [lookupP_setFile_ne _ _ q c hqd2, lookupP_removeP_ne _ src q hqs]
              exact h2
            · rw [if_neg hd2]
              exact h2
      | file c0 =>
        simp only [hld]
        have h2 := hfs2 (FS.removeP fs1 dst) (Or.inr rfl)
        have hld2 : FS.lookupP (FS.removeP fs1 dst) dst = none :=
          lookupP_removeP_self fs1 dst
        rcases hmv : FS.lookupP (FS.removeP fs1 dst) src with _ | nn2
        · simpa using h2
        · cases nn2 with
          | dir => simpa using h2
          | file c =>
            simp only [hld2]
            rw [lookupP_setFile_ne _ dst q c hqd,
              lookupP_removeP_ne _ src q hqs]
            exact h2

/-- A directory binding outside both the source and the destination
survives `_move_tree`. -/
theorem moveTree_preserves_dir (fuel : Nat) (fs : FS) (src dst q : FPath)
    (hs : ¬ src <+: q) (hd : ¬ dst <+: q)
    (h : FS.lookupP fs q = some Node.dir) :
    FS.lookupP (moveTree fuel fs src dst) q = some Node.dir := by
  induction fuel generalizing fs src dst with
  | zero => simpa [moveTree] using h
  | succ fuel ih =>
    have hqs : q ≠ src := ne_of_not_pfx hs
    rcases hsrc : FS.lookupP fs src with _ | nn
    · simp only [moveTree, hsrc]
      exact moveFileBranch_preserves_dir fs src dst q hs hd h
    · cases nn with
      | file c =>
        simp only [moveTree, hsrc]
        exact moveFileBranch_preserves_dir fs src dst q hs hd h
      | dir =>
        simp only [moveTree, hsrc]
        by_cases hex : (FS.lookupP fs dst).isSome = true
        · rw [if_pos hex]
          have hfold : ∀ (names : List String) (f : FS),
              FS.lookupP f q = some Node.dir →
              FS.lookupP (names.foldl
                (fun f n => moveTree fuel f (src ++ [n]) (dst ++ [n])) f) q
                = some Node.dir := by
            intro names
            induction names with
            | nil => intro f hf; exact hf
            | cons n rest ihn =>
              intro f hf
              exact ihn _ (ih _ _ _ (not_prefix_extend n hs)
                (not_prefix_extend n hd) hf)
          have h1 := hfold (FS.childNames fs src) fs h
          split
          · rw [lookupP_removeP_ne _ src q hqs]
            exact h1
          · exact h1
        · rw [if_neg hex]
          exact lookupP_renameSub fs src dst q hs hd ▸ h

/-- The staging directory binding survives layout reconciliation
(the final package directory is not a prefix of the staging path). -/
theorem reconcile_preserves_dir (fuel : Nat) (fs : FS) (tmp target : FPath)
    (hnt : ¬ target <+: tmp) (h : FS.lookupP fs tmp = some Node.dir) :
    FS.lookupP (reconcile fuel fs tmp target).1 tmp = some Node.dir := by
  rcases hmk : FS.mkdirp fs target with _ | f1
  · simpa [reconcile, hmk] using h
  · have h1 : FS.lookupP f1 tmp = some Node.dir :=
      mkdirp_preserves fs f1 target tmp Node.dir hmk h
    simp only [reconcile, hmk]
    split
    · exact moveTree_preserves_dir fuel f1 _ target tmp
        (append_singleton_not_pfx tmp _) hnt h1
    · have hfold : ∀ (names : List String) (f : FS),
          FS.lookupP f tmp = some Node.dir →
          FS.lookupP (names.foldl
            (fun f n => moveTree fuel f (tmp ++ [n]) (target ++ [n])) f) tmp
            = some Node.dir := by
        intro names
        induction names with
        | nil => intro f hf; exact hf
        | cons n rest ihn =>
          intro f hf
          exact ihn _ (moveTree_preserves_dir fuel f _ _ tmp
            (append_singleton_not_pfx tmp n) (not_prefix_extend n hnt) hf)
      exact hfold _ f1 h1

/-- Once the staging path is bound to a directory, the `finally` block
leaves no binding at or below it. -/
theorem cleanupTmp_no_tmp (fs : FS) (tmp : FPath)
    (h : FS.lookupP fs tmp = some Node.dir) :
    ∀ e ∈ cleanupTmp fs tmp, ¬ tmp <+: e.1 := by
  intro e he
  simp only [cleanupTmp, h, FS.rmtree] at he
  exact ((mem_removeSub fs tmp e).mp he).2

set_option maxHeartbeats 1000000 in
set_option synthInstance.maxHeartbeats 400000 in
/-- From the disk-space guard on, no binding at or below the staging
path survives the import — on success, on extraction errors, and on
reconciliation errors alike. -/
theorem importAfterTarget_no_tmp (enc437 : String → Option (List Nat))
    (dU dG : List Nat → Option String) (stem : String) (entries : List ZipEntry)
    (zipSize : Nat) (free : Option Nat) (fuel : Nat) (us target : FPath) (fs2 : FS)
    (h : ∀ e ∈ fs2, ¬ ((us ++ [".__tmp_extract__" ++ stem]) <+: e.1))
    (hnt : ¬ target <+: (us ++ [".__tmp_extract__" ++ stem])) :
    ∀ e ∈ (importAfterTarget enc437 dU dG stem entries zipSize free fuel
      us target fs2).1, ¬ ((us ++ [".__tmp_extract__" ++ stem]) <+: e.1) := by
  by_cases hg : diskGuardFails zipSize free = true
  · simp only [importAfterTarget, hg, if_true]
    exact h
  · simp only [importAfterTarget, hg, Bool.false_eq_true, if_false]
    have hts : us ++ [".__tmp_extract__" ++ stem] ≠ [] := by simp
    have h3 : ∀ fs3 : FS,
        (∀ e ∈ fs3, ¬ ((us ++ [".__tmp_extract__" ++ stem]) <+: e.1)) →
        ∀ e ∈ (match FS.mkdirp fs3 (us ++ [".__tmp_extract__" ++ stem]) with
          | none => (fs3, some ImpErr.importErr)
          | some fs4 =>
            match (extractAll enc437 dU dG (us ++ [".__tmp_extract__" ++ stem])
                fs4 entries).err with
            | some _ =>
              (cleanupTmp (extractAll enc437 dU dG
                  (us ++ [".__tmp_extract__" ++ stem]) fs4 entries).fs
                (us ++ [".__tmp_extract__" ++ stem]), some ImpErr.importErr)
            | none =>
              (cleanupTmp (reconcile fuel (extractAll enc437 dU dG
                  (us ++ [".__tmp_extract__" ++ stem]) fs4 entries).fs
                  (us ++ [".__tmp_extract__" ++ stem]) target).1
                (us ++ [".__tmp_extract__" ++ stem]),
               (reconcile fuel (extractAll enc437 dU dG
                  (us ++ [".__tmp_extract__" ++ stem]) fs4 entries).fs
                  (us ++ [".__tmp_extract__" ++ stem]) target).2)).1,
          ¬ ((us ++ [".__tmp_extract__" ++ stem]) <+: e.1) := by
      intro fs3 hfs3
      rcases hmk : FS.mkdirp fs3 (us ++ [".__tmp_extract__" ++ stem]) with _ | fs4
      · simpa [hmk] using hfs3
      · have hdir : FS.lookupP fs4 (us ++ [".__tmp_extract__" ++ stem])
            = some Node.dir := mkdirp_self_dir fs3 fs4 _ hts hmk
        have hdir2 := extractAll_preserves_dir enc437 dU dG
          (us ++ [".__tmp_extract__" ++ stem]) entries fs4
          (us ++ [".__tmp_extract__" ++ stem]) hdir
        rcases hre : (extractAll enc437 dU dG (us ++ [".__tmp_extract__" ++ stem])
            fs4 entries).err with _ | e0
        · have hdir3 := reconcile_preserves_dir fuel
            (extractAll enc437 dU dG (us ++ [".__tmp_extract__" ++ stem])
              fs4 entries).fs (us ++ [".__tmp_extract__" ++ stem]) target hnt hdir2
          simpa [hmk, hre] using cleanupTmp_no_tmp _ _ hdir3
        · simpa [hmk, hre] using cleanupTmp_no_tmp _ _ hdir2
    rcases hlt : FS.lookupP fs2 (us ++ [".__tmp_extract__" ++ stem]) with _ | x
    · simpa [hlt] using h3 fs2 h
    · rcases hrm : FS.rmtree fs2 (us ++ [".__tmp_extract__" ++ stem]) with _ | f
      · simpa [hlt, hrm] using h3 fs2 h
      · have hf : ∀ e ∈ f, ¬ ((us ++ [".__tmp_extract__" ++ stem]) <+: e.1) := by
          intro e he
          have : f = FS.removeSub fs2 (us ++ [".__tmp_extract__" ++ stem]) := by
            simp only [FS.rmtree] at hrm
            rcases hxx : FS.lookupP fs2 (us ++ [".__tmp_extract__" ++ stem]) with _ | y
            · rw [hxx] at hrm
              cases hrm
            · rw [hxx] at hrm
              cases y with
              | file c => cases hrm
              | dir => exact (Option.some.inj hrm).symm
          rw [this] at he
          exact ((mem_removeSub _ _ e).mp he).2
        simpa [hlt, hrm] using h3 f hf

/-- A successful `rmtree` is exactly the subtree removal. -/
theorem rmtree_some_eq (fs f : FS) (p : FPath) (h : FS.rmtree fs p = some f) :
    f = FS.removeSub fs p := by
  simp only [FS.rmtree] at h
  rcases hl : FS.lookupP fs p with _ | n
  · rw [hl] at h
    cases h
  · rw [hl] at h
    cases n with
    | file c => cases h
    | dir => exact (Option.some.inj h).symm

/-- The target package directory is never a prefix of the staging
directory (their last components differ: one stem cannot equal the
prefixed staging name). -/
theorem target_not_prefix_tmp (us : FPath) (stem : String) :
    ¬ us ++ [stem] <+: us ++ [".__tmp_extract__" ++ stem] := by
  intro hpfx
  have heq : us ++ [stem] = us ++ [".__tmp_extract__" ++ stem] :=
    List.IsPrefix.eq_of_length hpfx (by simp)
  have hstem : stem = ".__tmp_extract__" ++ stem := by
    have := List.append_cancel_left heq
    exact (List.cons.inj this).1
  have hlen := congrArg String.length hstem
  rw [String.length_append] at hlen
  have h16 : (".__tmp_extract__" : String).length = 16 := by decide
  omega

/-- C5: starting from a file system with nothing at or below the
staging path, `import_skin_zip` leaves nothing at or below the staging
path on *every* exit — validation aborts, collision aborts, disk-space
aborts, extraction failures, reconciliation failures, and success
alike: the `finally` block removes the staging directory before the
call returns or the exception propagates. -/
theorem claim_C5_staging_cleanup (enc437 : String → Option (List Nat))
    (dU dG : List Nat → Option String) (gp : FPath) (stem : String)
    (entries : List ZipEntry) (zipSize : Nat) (free : Option Nat)
    (overwrite : Bool) (fuel : Nat) (fs : FS)
    (h : ∀ e ∈ fs, ¬ ((gp ++ ["UserSkins"]) ++ [".__tmp_extract__" ++ stem]) <+: e.1) :
    ∀ e ∈ (importSkinZip enc437 dU dG gp stem entries zipSize free overwrite
        fuel fs).1,
      ¬ ((gp ++ ["UserSkins"]) ++ [".__tmp_extract__" ++ stem]) <+: e.1 := by
  have hnt := target_not_prefix_tmp (gp ++ ["UserSkins"]) stem
  by_cases hpre : preScanInvalid entries ≠ []
  · simp only [importSkinZip, if_pos hpre]
    exact h
  · simp only [importSkinZip, if_neg hpre]
    rcases hmk : FS.mkdirp fs (gp ++ ["UserSkins"]) with _ | fs1
    · simp only [hmk]
      exact h
    · simp only [hmk]
      have h1 : ∀ e ∈ fs1,
          ¬ ((gp ++ ["UserSkins"]) ++ [".__tmp_extract__" ++ stem]) <+: e.1 := by
        intro e he
        rcases mkdirp_mem fs fs1 _ hmk e he with hin | hpfx
        · exact h e hin
        · intro hT
          have hlen := (hT.trans hpfx).length_le
          simp at hlen
      rcases hlt : FS.lookupP fs1 ((gp ++ ["UserSkins"]) ++ [stem]) with _ | x
      · simp only [hlt]
        exact importAfterTarget_no_tmp enc437 dU dG stem entries zipSize free
          fuel (gp ++ ["UserSkins"]) ((gp ++ ["UserSkins"]) ++ [stem]) fs1 h1 hnt
      · simp only [hlt]
        cases overwrite with
        | false =>
          simp only [Bool.not_false, if_pos rfl]
          exact h1
        | true =>
          simp only [Bool.not_true, Bool.false_eq_true, if_false]
          rcases hrm : FS.rmtree fs1 ((gp ++ ["UserSkins"]) ++ [stem]) with _ | fs2
          · simp only [hrm]
            exact h1
          · simp only [hrm]
            have h2 : ∀ e ∈ fs2,
                ¬ ((gp ++ ["UserSkins"]) ++ [".__tmp_extract__" ++ stem]) <+: e.1 := by
              intro e he
              rw [rmtree_some_eq fs1 fs2 _ hrm] at he
              exact h1 e ((mem_removeSub _ _ e).mp he).1
            exact importAfterTarget_no_tmp enc437 dU dG stem entries zipSize free
              fuel (gp ++ ["UserSkins"]) ((gp ++ ["UserSkins"]) ++ [stem]) fs2 h2 hnt

/-- Witness for C5: a concrete import (the camo_red scenario) leaves no
binding at or below its staging path — checked here at the destination
package directory the run produces. -/
theorem claim_C5_staging_cleanup_witness :
    ¬ ((["G"] ++ ["UserSkins"]) ++ [".__tmp_extract__" ++ "camo_red"]) <+:
      (((["G", "UserSkins", "camo_red"] : FPath), Node.dir) : FPath × Node).1 :=
  claim_C5_staging_cleanup noEnc noDec noDec ["G"] "camo_red"
    [⟨"camo_red/", 0⟩, ⟨"camo_red/a.dds", 1⟩, ⟨"camo_red/b.blk", 2⟩,
     ⟨"camo_red/c.tga", 3⟩] 1 (some 1000000) false 20 []
    (by simp)
    ((["G", "UserSkins", "camo_red"], Node.dir)) (by decide)

/-! ## Claim C6 -/

/-- Layout reconciliation only raises `SkinsImportError`s. -/
theorem reconcile_err_cases (fuel : Nat) (fs : FS) (tmp target : FPath) :
    (reconcile fuel fs tmp target).2 = none
    ∨ (reconcile fuel fs tmp target).2 = some ImpErr.importErr := by
  rcases h : FS.mkdirp fs target with _ | f1
  · right
    simp [reconcile, h]
  · left
    simp only [reconcile, h]
    split <;> rfl

/-- Once the disk-space guard has passed, the rest of the import never
reports `DiskSpaceError`. -/
theorem importAfterTarget_no_diskSpace (enc437 : String → Option (List Nat))
    (dU dG : List Nat → Option String) (stem : String) (entries : List ZipEntry)
    (zipSize : Nat) (free : Option Nat) (fuel : Nat) (us target : FPath) (fs2 : FS)
    (hg : diskGuardFails zipSize free = false) :
    (importAfterTarget enc437 dU dG stem entries zipSize free fuel us target fs2).2
      ≠ some ImpErr.diskSpace := by
  unfold importAfterTarget
  rw [hg]
  simp only [Bool.false_eq_true, if_false]
  split
  · simp
  · split
    · simp
    · rcases reconcile_err_cases fuel
        (extractAll enc437 dU dG (us ++ [".__tmp_extract__" ++ stem])
          (by assumption) entries).fs (us ++ [".__tmp_extract__" ++ stem]) target
        with h | h <;> simp [h]

/-- C6: with a valid archive and a free destination name, the import
fails with `DiskSpaceError` exactly when the free-space query succeeds
and reports less than `zip_size * 3` (expansion factor) `* 2` (safety
margin); a failing query passes (fail-open).  On failure the returned
state is exactly the one after the `UserSkins` `mkdir` — the
destination package directory was never created and nothing was
extracted. -/
theorem claim_C6_disk_space_guard (enc437 : String → Option (List Nat))
    (dU dG : List Nat → Option String) (gp : FPath) (stem : String)
    (entries : List ZipEntry) (zipSize : Nat) (free : Option Nat)
    (overwrite : Bool) (fuel : Nat) (fs fs1 : FS)
    (h1 : preScanInvalid entries = [])
    (h2 : FS.mkdirp fs (gp ++ ["UserSkins"]) = some fs1)
    (h3 : FS.lookupP fs1 (gp ++ ["UserSkins", stem]) = none) :
    ((importSkinZip enc437 dU dG gp stem entries zipSize free overwrite fuel fs).2
        = some ImpErr.diskSpace
      ↔ ∃ f, free = some f ∧ f < zipSize * 3 * 2)
    ∧ ((importSkinZip enc437 dU dG gp stem entries zipSize free overwrite fuel fs).2
        = some ImpErr.diskSpace →
      importSkinZip enc437 dU dG gp stem entries zipSize free overwrite fuel fs
        = (fs1, some ImpErr.diskSpace)
      ∧ FS.lookupP fs1 (gp ++ ["UserSkins", stem]) = none) := by
  have hrun : importSkinZip enc437 dU dG gp stem entries zipSize free overwrite fuel fs
      = importAfterTarget enc437 dU dG stem entries zipSize free fuel
          (gp ++ ["UserSkins"]) (gp ++ ["UserSkins", stem]) fs1 := by
    simp [importSkinZip, h1, h2, h3]
  rw [hrun]
  cases hg : diskGuardFails zipSize free with
  | true =>
    have hfail : importAfterTarget enc437 dU dG stem entries zipSize free fuel
        (gp ++ ["UserSkins"]) (gp ++ ["UserSkins", stem]) fs1
        = (fs1, some ImpErr.diskSpace) := by
      unfold importAfterTarget
      rw [hg]
      simp
    refine ⟨⟨fun _ => ?_, fun _ => by rw [hfail]⟩, fun _ => ⟨hfail, h3⟩⟩
    · cases free with
      | none => simp [diskGuardFails] at hg
      | some f =>
        refine ⟨f, rfl, ?_⟩
        simpa [diskGuardFails] using hg
  | false =>
    have hnd := importAfterTarget_no_diskSpace enc437 dU dG stem entries zipSize
      free fuel (gp ++ ["UserSkins"]) (gp ++ ["UserSkins", stem]) fs1 hg
    refine ⟨⟨fun hc => absurd hc hnd, ?_⟩, fun hc => absurd hc hnd⟩
    rintro ⟨f, rfl, hlt⟩
    simp [diskGuardFails, hlt] at hg

/-- Witness for C6: a concrete import over an empty file system with
zero reported free space fails the guard, and with a failing query it
does not. -/
theorem claim_C6_disk_space_guard_witness :
    (((importSkinZip noEnc noDec noDec ["G"] "p" [] 1 (some 0) false 20 []).2
        = some ImpErr.diskSpace
      ↔ ∃ f, (some 0 : Option Nat) = some f ∧ f < 1 * 3 * 2)
      ∧ ((importSkinZip noEnc noDec noDec ["G"] "p" [] 1 (some 0) false 20 []).2
          = some ImpErr.diskSpace →
        importSkinZip noEnc noDec noDec ["G"] "p" [] 1 (some 0) false 20 []
          = ([(["G", "UserSkins"], Node.dir), (["G"], Node.dir)],
             some ImpErr.diskSpace)
        ∧ FS.lookupP [(["G", "UserSkins"], Node.dir), (["G"], Node.dir)]
            (["G"] ++ ["UserSkins", "p"]) = none))
    ∧ (((importSkinZip noEnc noDec noDec ["G"] "p" [] 1 none false 20 []).2
        = some ImpErr.diskSpace
      ↔ ∃ f, (none : Option Nat) = some f ∧ f < 1 * 3 * 2)
      ∧ ((importSkinZip noEnc noDec noDec ["G"] "p" [] 1 none false 20 []).2
          = some ImpErr.diskSpace →
        importSkinZip noEnc noDec noDec ["G"] "p" [] 1 none false 20 []
          = ([(["G", "UserSkins"], Node.dir), (["G"], Node.dir)],
             some ImpErr.diskSpace)
        ∧ FS.lookupP [(["G", "UserSkins"], Node.dir), (["G"], Node.dir)]
            (["G"] ++ ["UserSkins", "p"]) = none)) :=
  ⟨claim_C6_disk_space_guard noEnc noDec noDec ["G"] "p" [] 1 (some 0) false 20 []
      [(["G", "UserSkins"], Node.dir), (["G"], Node.dir)]
      (by decide) (by decide) (by decide),
   claim_C6_disk_space_guard noEnc noDec noDec ["G"] "p" [] 1 none false 20 []
      [(["G", "UserSkins"], Node.dir), (["G"], Node.dir)]
      (by decide) (by decide) (by decide)⟩

/-- C9 (code bug): `clear_manifest` is specified (docstring and spec) to
reset the in-memory manifest to the empty record, but
`EMPTY_MANIFEST.copy()` is a shallow copy; after a manager constructed
over a missing manifest file records an installation (mutating the
aliased template dictionaries), `clear_manifest` re-aliases those
polluted dictionaries: it reports success and deletes the persisted
document, yet the in-memory manifest still holds the old entries. -/
theorem claim_C9_clear_shallow_copy_bug :
    (clear_manifest (record_installation freshNoFile true "p" ["a"] 0).1).2 = true
    ∧ (clear_manifest (record_installation freshNoFile true "p" ["a"] 0).1).1.disk = none
    ∧ getFm (clear_manifest (record_installation freshNoFile true "p" ["a"] 0).1).1
        = [("a", "p")]
    ∧ getIm (clear_manifest (record_installation freshNoFile true "p" ["a"] 0).1).1
        = [("p", ⟨["a"], 0⟩)] := by
  decide

end Aimer
